import Mathlib

/-!
Verification development for the chunked-cache repository
(`src/lib/chunkedCache.ts`, the module imported by `src/app/page.tsx`).

JavaScript strings are modelled as lists of UTF-16 code units (`List Nat`).
`JSON.stringify` / `JSON.parse` are modelled by an executable serializer and
parser over a `Json` value type (numbers restricted to integers; the
repository never relies on float payloads).  The Next.js `unstable_cache`
persistent layer is modelled as an association list from derived cache keys to
stored values, together with boolean oracles describing which external
put/get calls succeed (the spec's `StoreFailure`).
-/

namespace ChunkedCache

/-- A decimal digit test on a UTF-16 code unit, as used by the number parser. -/
def isDigit (c : Nat) : Bool := 48 ≤ c && c ≤ 57

/-- Big-endian decimal representation of a natural number, fuel-indexed so the
definition is structurally recursive and kernel-reducible.  Models the
JavaScript template-literal conversion of a nonnegative integer. -/
def natReprAux : Nat → Nat → List Nat
  | 0, _ => []
  | fuel + 1, n => if n < 10 then [n + 48] else natReprAux fuel (n / 10) ++ [n % 10 + 48]

/-- Decimal code units of `n`, e.g. `natRepr 360 = [51, 54, 48]`. -/
def natRepr (n : Nat) : List Nat := natReprAux (n + 1) n

/-- Accumulator pass of the decimal parser: consumes leading digits. -/
def parseNatAux : List Nat → Nat → Nat × List Nat
  | [], acc => (acc, [])
  | c :: rest, acc =>
      if isDigit c then parseNatAux rest (acc * 10 + (c - 48)) else (acc, c :: rest)

/-- Decimal parser; fails unless the input starts with a digit. -/
def parseNat : List Nat → Option (Nat × List Nat)
  | [] => none
  | c :: rest => if isDigit c then some (parseNatAux rest (c - 48)) else none

/-- The value a digit list denotes, accumulating left to right. -/
def decFold (acc : Nat) (ds : List Nat) : Nat :=
  ds.foldl (fun a d => a * 10 + (d - 48)) acc

/-- The input is not headed by a decimal digit (so a maximal-munch number
parse stops exactly at the boundary). -/
def noDigitHead (s : List Nat) : Prop :=
  ∀ c, s.head? = some c → isDigit c = false

theorem noDigitHead_nil : noDigitHead [] := by
  intro c h
  simp at h

theorem noDigitHead_cons {c : Nat} {s : List Nat} (h : isDigit c = false) :
    noDigitHead (c :: s) := by
  intro d hd
  simp at hd
  simpa [hd] using h

theorem natReprAux_all_digits :
    ∀ fuel n d, d ∈ natReprAux fuel n → 48 ≤ d ∧ d ≤ 57 := by
  intro fuel
  induction fuel with
  | zero => intro n d h; simp [natReprAux] at h
  | succ fuel ih =>
    intro n d h
    by_cases hn : n < 10
    · simp [natReprAux, hn] at h
      omega
    · simp [natReprAux, hn] at h
      rcases h with h | h
      · exact ih _ _ h
      · have : n % 10 < 10 := Nat.mod_lt _ (by omega)
        omega

theorem natRepr_all_digits {n d : Nat} (h : d ∈ natRepr n) : 48 ≤ d ∧ d ≤ 57 :=
  natReprAux_all_digits _ _ _ h

theorem natReprAux_ne_nil (fuel n : Nat) (h : 0 < fuel) : natReprAux fuel n ≠ [] := by
  cases fuel with
  | zero => omega
  | succ fuel =>
    by_cases hn : n < 10 <;> simp [natReprAux, hn]

theorem decFold_append (acc : Nat) (l₁ l₂ : List Nat) :
    decFold acc (l₁ ++ l₂) = decFold (decFold acc l₁) l₂ := by
  simp [decFold, List.foldl_append]

theorem decFold_natReprAux :
    ∀ fuel n acc, n < 10 ^ fuel →
      decFold acc (natReprAux fuel n) = acc * 10 ^ (natReprAux fuel n).length + n := by
  intro fuel
  induction fuel with
  | zero => intro n acc h; simp at h; simp [natReprAux, decFold, h]
  | succ fuel ih =>
    intro n acc h
    by_cases hn : n < 10
    · simp [natReprAux, hn, decFold]
    · have hdiv : n / 10 < 10 ^ fuel := by
        rw [Nat.div_lt_iff_lt_mul (by omega)]
        calc n < 10 ^ (fuel + 1) := h
        _ = 10 ^ fuel * 10 := by ring
      simp only [natReprAux, hn, if_false]
      rw [decFold_append, ih _ acc hdiv]
      have hlen : (natReprAux fuel (n / 10) ++ [n % 10 + 48]).length
          = (natReprAux fuel (n / 10)).length + 1 := by simp
      rw [hlen]
      show (acc * 10 ^ (natReprAux fuel (n / 10)).length + n / 10) * 10 + (n % 10 + 48 - 48)
          = acc * 10 ^ ((natReprAux fuel (n / 10)).length + 1) + n
      rw [pow_succ, ← mul_assoc]
      generalize acc * 10 ^ (natReprAux fuel (n / 10)).length = Q
      omega

theorem decFold_natRepr (n : Nat) : decFold 0 (natRepr n) = n := by
  have h : n < 10 ^ (n + 1) := by
    calc n < n + 1 := by omega
    _ ≤ 10 ^ (n + 1) := by
          exact Nat.le_of_lt (Nat.lt_pow_self (by omega) _)
  simpa using decFold_natReprAux (n + 1) n 0 h

theorem parseNatAux_append_digits :
    ∀ (ds rest : List Nat) (acc : Nat), (∀ d ∈ ds, isDigit d = true) → noDigitHead rest →
      parseNatAux (ds ++ rest) acc = (decFold acc ds, rest) := by
  intro ds
  induction ds with
  | nil =>
    intro rest acc _ hrest
    cases rest with
    | nil => simp [parseNatAux, decFold]
    | cons c t =>
      have : isDigit c = false := hrest c (by simp)
      simp [parseNatAux, this, decFold]
  | cons d ds ih =>
    intro rest acc hds hrest
    have hd : isDigit d = true := hds d (by simp)
    simp only [List.cons_append, parseNatAux, hd, if_true, List.append_eq]
    rw [ih rest _ (fun x hx => hds x (by simp [hx])) hrest]
    rfl

theorem parseNat_natRepr (n : Nat) (rest : List Nat) (hrest : noDigitHead rest) :
    parseNat (natRepr n ++ rest) = some (n, rest) := by
  have hne : natRepr n ≠ [] := natReprAux_ne_nil _ _ (by omega)
  obtain ⟨d, ds, hds⟩ : ∃ d ds, natRepr n = d :: ds := by
    cases h : natRepr n with
    | nil => exact absurd h hne
    | cons d ds => exact ⟨d, ds, rfl⟩
  have hdig : ∀ x ∈ natRepr n, 48 ≤ x ∧ x ≤ 57 := fun x hx => natRepr_all_digits hx
  have hd : isDigit d = true := by
    have := hdig d (by rw [hds]; simp)
    simp [isDigit]
    omega
  have hdsdig : ∀ x ∈ ds, isDigit x = true := by
    intro x hx
    have := hdig x (by rw [hds]; simp [hx])
    simp [isDigit]
    omega
  rw [hds]
  simp only [List.cons_append, parseNat, hd, if_true]
  rw [parseNatAux_append_digits ds rest (d - 48) hdsdig hrest]
  have : decFold (d - 48) ds = n := by
    have h0 : decFold 0 (d :: ds) = n := by rw [← hds]; exact decFold_natRepr n
    simpa [decFold] using h0
  rw [this]

theorem natRepr_inj {a b : Nat} (h : natRepr a = natRepr b) : a = b := by
  have ha := parseNat_natRepr a [] noDigitHead_nil
  have hb := parseNat_natRepr b [] noDigitHead_nil
  rw [List.append_nil] at ha hb
  rw [h, hb] at ha
  simp at ha
  omega

theorem natRepr_count_eq_zero {c n : Nat} (hc : c < 48 ∨ 57 < c) :
    List.count c (natRepr n) = 0 := by
  rw [List.count_eq_zero]
  intro hmem
  have := natRepr_all_digits hmem
  omega

/-- Lowercase hex digit for a value below 16, as emitted by JSON escape
sequences such as `\u001f`. -/
def hexDigit (d : Nat) : Nat := if d < 10 then d + 48 else d + 87

/-- Numeric value of a hex digit code unit (accepting both cases). -/
def hexVal (c : Nat) : Option Nat :=
  if 48 ≤ c ∧ c ≤ 57 then some (c - 48)
  else if 97 ≤ c ∧ c ≤ 102 then some (c - 87)
  else if 65 ≤ c ∧ c ≤ 70 then some (c - 55)
  else none

/-- Four-digit hex representation used by `\uXXXX` escapes. -/
def hex4 (c : Nat) : List Nat :=
  [hexDigit (c / 4096 % 16), hexDigit (c / 256 % 16), hexDigit (c / 16 % 16), hexDigit (c % 16)]

theorem hexVal_hexDigit {d : Nat} (h : d < 16) : hexVal (hexDigit d) = some d := by
  by_cases h10 : d < 10 <;> simp [hexDigit, hexVal, h10] <;> omega

/-- How `JSON.stringify` renders one UTF-16 code unit inside a string literal:
quote, backslash and the named control characters get two-character escapes,
the remaining control characters and lone surrogates get `\uXXXX`, everything
else is emitted verbatim. -/
def escapeChar (c : Nat) : List Nat :=
  if c = 34 then [92, 34]
  else if c = 92 then [92, 92]
  else if c = 8 then [92, 98]
  else if c = 9 then [92, 116]
  else if c = 10 then [92, 110]
  else if c = 12 then [92, 102]
  else if c = 13 then [92, 114]
  else if c < 32 then 92 :: 117 :: hex4 c
  else if 55296 ≤ c ∧ c ≤ 57343 then 92 :: 117 :: hex4 c
  else [c]

/-- Escaped body of a JSON string literal. -/
def escapeString : List Nat → List Nat
  | [] => []
  | c :: cs => escapeChar c ++ escapeString cs

/-- Parser for the body of a JSON string literal, after the opening quote;
returns the decoded code units and the input remaining after the closing
quote.  Fuel-indexed so that the definition reduces; callers supply at least
the input length plus one, which is always enough since every step consumes
at least one input unit. -/
def parseStringRest : Nat → List Nat → Option (List Nat × List Nat)
  | 0, _ => none
  | fuel + 1, s =>
    match s with
    | [] => none
    | c :: rest =>
      if c = 34 then some ([], rest)
      else if c = 92 then
        match rest with
        | [] => none
        | e :: r2 =>
          if e = 34 then (parseStringRest fuel r2).bind fun p => some (34 :: p.1, p.2)
          else if e = 92 then (parseStringRest fuel r2).bind fun p => some (92 :: p.1, p.2)
          else if e = 47 then (parseStringRest fuel r2).bind fun p => some (47 :: p.1, p.2)
          else if e = 98 then (parseStringRest fuel r2).bind fun p => some (8 :: p.1, p.2)
          else if e = 102 then (parseStringRest fuel r2).bind fun p => some (12 :: p.1, p.2)
          else if e = 110 then (parseStringRest fuel r2).bind fun p => some (10 :: p.1, p.2)
          else if e = 114 then (parseStringRest fuel r2).bind fun p => some (13 :: p.1, p.2)
          else if e = 116 then (parseStringRest fuel r2).bind fun p => some (9 :: p.1, p.2)
          else if e = 117 then
            match r2 with
            | h1 :: h2 :: h3 :: h4 :: r3 =>
              match hexVal h1, hexVal h2, hexVal h3, hexVal h4 with
              | some a, some b, some c3, some d =>
                (parseStringRest fuel r3).bind fun p =>
                  some ((((a * 16 + b) * 16 + c3) * 16 + d) :: p.1, p.2)
              | _, _, _, _ => none
            | _ => none
          else none
      else if c < 32 then none
      else (parseStringRest fuel rest).bind fun p => some (c :: p.1, p.2)

theorem parseStringRest_uescape (c : Nat) (hlt : c < 65536) (fuel : Nat) (tail cs rest : List Nat)
    (htail : parseStringRest fuel tail = some (cs, rest)) :
    parseStringRest (fuel + 1) (92 :: 117 :: (hex4 c ++ tail)) = some (c :: cs, rest) := by
  have h1 : c / 4096 % 16 < 16 := Nat.mod_lt _ (by omega)
  have h2 : c / 256 % 16 < 16 := Nat.mod_lt _ (by omega)
  have h3 : c / 16 % 16 < 16 := Nat.mod_lt _ (by omega)
  have h4 : c % 16 < 16 := Nat.mod_lt _ (by omega)
  have hc : ((c / 4096 % 16 * 16 + c / 256 % 16) * 16 + c / 16 % 16) * 16 + c % 16 = c := by
    omega
  simp only [hex4, List.cons_append]
  simp [parseStringRest, hexVal_hexDigit h1, hexVal_hexDigit h2, hexVal_hexDigit h3,
    hexVal_hexDigit h4, htail, hc]

theorem parseStringRest_escape (s : List Nat) :
    ∀ fuel rest, s.length < fuel →
      parseStringRest fuel (escapeString s ++ 34 :: rest) = some (s, rest) := by
  induction s with
  | nil =>
    intro fuel rest hf
    obtain ⟨f, rfl⟩ : ∃ f, fuel = f + 1 := ⟨fuel - 1, by omega⟩
    simp [escapeString, parseStringRest]
  | cons c cs ih =>
    intro fuel rest hf
    obtain ⟨f, rfl⟩ : ∃ f, fuel = f + 1 := ⟨fuel - 1, by omega⟩
    have hfcs : cs.length < f := by simp at hf; omega
    show parseStringRest (f + 1) (escapeChar c ++ escapeString cs ++ 34 :: rest)
        = some (c :: cs, rest)
    by_cases h34 : c = 34
    · subst h34; simp [escapeChar, parseStringRest, ih f rest hfcs]
    · by_cases h92 : c = 92
      · subst h92; simp [escapeChar, parseStringRest, ih f rest hfcs]
      · by_cases h8 : c = 8
        · subst h8; simp [escapeChar, parseStringRest, ih f rest hfcs]
        · by_cases h9 : c = 9
          · subst h9; simp [escapeChar, parseStringRest, ih f rest hfcs]
          · by_cases h10 : c = 10
            · subst h10; simp [escapeChar, parseStringRest, ih f rest hfcs]
            · by_cases h12 : c = 12
              · subst h12; simp [escapeChar, parseStringRest, ih f rest hfcs]
              · by_cases h13 : c = 13
                · subst h13; simp [escapeChar, parseStringRest, ih f rest hfcs]
                · by_cases hctl : c < 32
                  · have hlt : c < 65536 := by omega
                    have hesc : escapeChar c = 92 :: 117 :: hex4 c := by
                      simp [escapeChar, h34, h92, h8, h9, h10, h12, h13, hctl]
                    rw [hesc]
                    have hu := parseStringRest_uescape c hlt f
                      (escapeString cs ++ 34 :: rest) cs rest (ih f rest hfcs)
                    simpa [List.append_assoc] using hu
                  · by_cases hsur : 55296 ≤ c ∧ c ≤ 57343
                    · have hlt : c < 65536 := by omega
                      have hesc : escapeChar c = 92 :: 117 :: hex4 c := by
                        simp [escapeChar, h34, h92, h8, h9, h10, h12, h13, hctl, hsur]
                      rw [hesc]
                      have hu := parseStringRest_uescape c hlt f
                        (escapeString cs ++ 34 :: rest) cs rest (ih f rest hfcs)
                      simpa [List.append_assoc] using hu
                    · have hone : escapeChar c = [c] := by
                        simp [escapeChar, h34, h92, h8, h9, h10, h12, h13, hctl, hsur]
                      rw [hone]
                      simp [parseStringRest, h34, h92, hctl, ih f rest hfcs]

/-- JSON values, modelling what `JSON.stringify` / `JSON.parse` exchange.
Strings are lists of UTF-16 code units; numbers are restricted to integers
(the repository's payloads do not rely on non-integer numbers, and the
serializer side never emits fractions). -/
inductive Json where
  | jnull : Json
  | jbool : Bool → Json
  | jnum : Int → Json
  | jstr : List Nat → Json
  | jarr : List Json → Json
  | jobj : List (List Nat × Json) → Json

/-- Decimal representation of an integer, as in JSON number output. -/
def intRepr (n : Int) : List Nat :=
  if n < 0 then 45 :: natRepr (-n).toNat else natRepr n.toNat

mutual

/-- Model of `JSON.stringify` (on values that do have a JSON encoding). -/
def stringify : Json → List Nat
  | .jnull => [110, 117, 108, 108]
  | .jbool true => [116, 114, 117, 101]
  | .jbool false => [102, 97, 108, 115, 101]
  | .jnum n => intRepr n
  | .jstr s => 34 :: escapeString s ++ [34]
  | .jarr [] => [91, 93]
  | .jarr (x :: xs) => 91 :: (stringify x ++ stringifyElems xs ++ [93])
  | .jobj [] => [123, 125]
  | .jobj (m :: ms) => 123 :: (stringifyMember m ++ stringifyMembers ms ++ [125])

/-- Comma-separated continuation of a nonempty array body. -/
def stringifyElems : List Json → List Nat
  | [] => []
  | x :: xs => 44 :: stringify x ++ stringifyElems xs

/-- One `"key":value` object member. -/
def stringifyMember : List Nat × Json → List Nat
  | (k, v) => 34 :: escapeString k ++ [34, 58] ++ stringify v

/-- Comma-separated continuation of a nonempty object body. -/
def stringifyMembers : List (List Nat × Json) → List Nat
  | [] => []
  | m :: ms => 44 :: stringifyMember m ++ stringifyMembers ms

end

mutual

/-- Fuel sufficient for `parseValue` on the canonical encoding of a value. -/
def jfuel : Json → Nat
  | .jnull => 1
  | .jbool _ => 1
  | .jnum _ => 1
  | .jstr _ => 1
  | .jarr l => jfuelElems l + 1
  | .jobj m => jfuelMembers m + 1

def jfuelElems : List Json → Nat
  | [] => 1
  | x :: xs => max (jfuel x) (jfuelElems xs) + 1

def jfuelMember : List Nat × Json → Nat
  | (_, v) => jfuel v + 1

def jfuelMembers : List (List Nat × Json) → Nat
  | [] => 1
  | m :: ms => max (jfuelMember m) (jfuelMembers ms) + 1

end

mutual

/-- Model of `JSON.parse` on one value, fuel-indexed.  Returns the parsed
value and the remaining input.  Mirrors strict JSON grammar except that
numbers are integer-only and insignificant whitespace is not modelled (the
serializer never emits any). -/
def parseValue : Nat → List Nat → Option (Json × List Nat)
  | 0, _ => none
  | fuel + 1, s =>
    match s with
    | [] => none
    | c :: rest =>
      if c = 110 then
        match rest with
        | 117 :: 108 :: 108 :: r => some (.jnull, r)
        | _ => none
      else if c = 116 then
        match rest with
        | 114 :: 117 :: 101 :: r => some (.jbool true, r)
        | _ => none
      else if c = 102 then
        match rest with
        | 97 :: 108 :: 115 :: 101 :: r => some (.jbool false, r)
        | _ => none
      else if c = 34 then
        (parseStringRest (rest.length + 1) rest).bind fun p => some (.jstr p.1, p.2)
      else if c = 45 then
        (parseNat rest).bind fun p => some (.jnum (-(p.1 : Int)), p.2)
      else if isDigit c then
        (parseNat (c :: rest)).bind fun p => some (.jnum (p.1 : Int), p.2)
      else if c = 91 then
        match rest with
        | [] => none
        | c2 :: r2 =>
          if c2 = 93 then some (.jarr [], r2)
          else
            (parseValue fuel (c2 :: r2)).bind fun p =>
            (parseElems fuel p.2).bind fun q => some (.jarr (p.1 :: q.1), q.2)
      else if c = 123 then
        match rest with
        | [] => none
        | c2 :: r2 =>
          if c2 = 125 then some (.jobj [], r2)
          else
            (parseMember fuel (c2 :: r2)).bind fun p =>
            (parseMembers fuel p.2).bind fun q => some (.jobj (p.1 :: q.1), q.2)
      else none

/-- After the first element of an array: `,v,...,v]` continuation. -/
def parseElems : Nat → List Nat → Option (List Json × List Nat)
  | 0, _ => none
  | fuel + 1, s =>
    match s with
    | [] => none
    | c :: rest =>
      if c = 93 then some ([], rest)
      else if c = 44 then
        (parseValue fuel rest).bind fun p =>
        (parseElems fuel p.2).bind fun q => some (p.1 :: q.1, q.2)
      else none

/-- One `"key":value` object member. -/
def parseMember : Nat → List Nat → Option ((List Nat × Json) × List Nat)
  | 0, _ => none
  | fuel + 1, s =>
    match s with
    | 34 :: rest =>
      (parseStringRest (rest.length + 1) rest).bind fun p =>
        match p.2 with
        | 58 :: r2 => (parseValue fuel r2).bind fun q => some ((p.1, q.1), q.2)
        | _ => none
    | _ => none

/-- After the first member of an object: `,m,...,m}` continuation. -/
def parseMembers : Nat → List Nat → Option (List (List Nat × Json) × List Nat)
  | 0, _ => none
  | fuel + 1, s =>
    match s with
    | [] => none
    | c :: rest =>
      if c = 125 then some ([], rest)
      else if c = 44 then
        (parseMember fuel rest).bind fun p =>
        (parseMembers fuel p.2).bind fun q => some (p.1 :: q.1, q.2)
      else none

end

/-- Model of `JSON.parse` on a whole document: the entire input must be
consumed. -/
def parseJson (s : List Nat) : Option Json :=
  (parseValue (s.length + 1) s).bind fun p => if p.2 = [] then some p.1 else none

theorem escapeChar_length_pos (c : Nat) : 0 < (escapeChar c).length := by
  unfold escapeChar
  repeat' split
  all_goals simp [hex4]

theorem escapeString_length_ge (s : List Nat) : s.length ≤ (escapeString s).length := by
  induction s with
  | nil => simp [escapeString]
  | cons c cs ih =>
    have := escapeChar_length_pos c
    simp only [escapeString, List.length_append, List.length_cons]
    omega

theorem natRepr_cons (n : Nat) : ∃ d ds, natRepr n = d :: ds ∧ 48 ≤ d ∧ d ≤ 57 := by
  cases h : natRepr n with
  | nil => exact absurd h (natReprAux_ne_nil _ _ (by omega))
  | cons d ds =>
    refine ⟨d, ds, rfl, ?_⟩
    have : d ∈ natRepr n := by rw [h]; simp
    exact natRepr_all_digits this

theorem stringify_head (v : Json) : ∃ c t, stringify v = c :: t ∧ c ≠ 93 := by
  cases v with
  | jnull => exact ⟨110, _, rfl, by omega⟩
  | jbool b => cases b with
    | true => exact ⟨116, _, rfl, by omega⟩
    | false => exact ⟨102, _, rfl, by omega⟩
  | jnum n =>
    by_cases hn : n < 0
    · exact ⟨45, natRepr (-n).toNat, by simp [stringify, intRepr, hn], by omega⟩
    · obtain ⟨d, ds, hds, h48, h57⟩ := natRepr_cons n.toNat
      exact ⟨d, ds, by simp [stringify, intRepr, hn, hds], by omega⟩
  | jstr s => exact ⟨34, _, rfl, by omega⟩
  | jarr l => cases l with
    | nil => exact ⟨91, _, rfl, by omega⟩
    | cons x xs => exact ⟨91, _, rfl, by omega⟩
  | jobj m => cases m with
    | nil => exact ⟨123, _, rfl, by omega⟩
    | cons x xs => exact ⟨123, _, rfl, by omega⟩

theorem stringify_length_pos (v : Json) : 0 < (stringify v).length := by
  obtain ⟨c, t, h, -⟩ := stringify_head v
  simp [h]

theorem stringifyMember_length_pos (m : List Nat × Json) : 0 < (stringifyMember m).length := by
  obtain ⟨k, v⟩ := m
  simp [stringifyMember]

theorem noDigitHead_elemsTail (vs : List Json) (rest : List Nat) :
    noDigitHead (stringifyElems vs ++ 93 :: rest) := by
  cases vs with
  | nil =>
    apply noDigitHead_cons
    simp [isDigit]
  | cons x xs =>
    apply noDigitHead_cons
    simp [isDigit]

theorem noDigitHead_membersTail (ms : List (List Nat × Json)) (rest : List Nat) :
    noDigitHead (stringifyMembers ms ++ 125 :: rest) := by
  cases ms with
  | nil =>
    apply noDigitHead_cons
    simp [isDigit]
  | cons m ms =>
    apply noDigitHead_cons
    simp [isDigit]

mutual

theorem parseValue_stringify (v : Json) :
    ∀ fuel rest, jfuel v ≤ fuel → noDigitHead rest →
      parseValue fuel (stringify v ++ rest) = some (v, rest) := by
  cases v with
  | jnull =>
    intro fuel rest hf _
    obtain ⟨f, rfl⟩ : ∃ f, fuel = f + 1 := ⟨fuel - 1, by simp [jfuel] at hf; omega⟩
    simp [stringify, parseValue]
  | jbool b =>
    intro fuel rest hf _
    obtain ⟨f, rfl⟩ : ∃ f, fuel = f + 1 := ⟨fuel - 1, by simp [jfuel] at hf; omega⟩
    cases b with
    | true => simp [stringify, parseValue]
    | false => simp [stringify, parseValue]
  | jnum n =>
    intro fuel rest hf hrest
    obtain ⟨f, rfl⟩ : ∃ f, fuel = f + 1 := ⟨fuel - 1, by simp [jfuel] at hf; omega⟩
    by_cases hn : n < 0
    · have hm := parseNat_natRepr (-n).toNat rest hrest
      have hstr : stringify (Json.jnum n) ++ rest = 45 :: (natRepr (-n).toNat ++ rest) := by
        simp [stringify, intRepr, hn]
      rw [hstr]
      simp [parseValue, hm]
      omega
    · obtain ⟨d, ds, hds, h48, h57⟩ := natRepr_cons n.toNat
      have hm := parseNat_natRepr n.toNat rest hrest
      have hstr : stringify (Json.jnum n) ++ rest = d :: (ds ++ rest) := by
        simp [stringify, intRepr, hn, hds]
      rw [hstr]
      have hp : parseNat (d :: (ds ++ rest)) = some (n.toNat, rest) := by
        rw [← List.cons_append, ← hds]
        exact hm
      have hd110 : ¬ d = 110 := by omega
      have hd116 : ¬ d = 116 := by omega
      have hd102 : ¬ d = 102 := by omega
      have hd34 : ¬ d = 34 := by omega
      have hd45 : ¬ d = 45 := by omega
      have hdd : isDigit d = true := by simp [isDigit]; omega
      simp [parseValue, hd110, hd116, hd102, hd34, hd45, hdd, hp]
      omega
  | jstr s =>
    intro fuel rest hf _
    obtain ⟨f, rfl⟩ : ∃ f, fuel = f + 1 := ⟨fuel - 1, by simp [jfuel] at hf; omega⟩
    have hstr : stringify (Json.jstr s) ++ rest = 34 :: (escapeString s ++ 34 :: rest) := by
      simp [stringify]
    rw [hstr]
    simp only [parseValue]
    rw [parseStringRest_escape s]
    · simp
    · have := escapeString_length_ge s
      simp
      omega
  | jarr l =>
    cases l with
    | nil =>
      intro fuel rest hf _
      obtain ⟨f, rfl⟩ : ∃ f, fuel = f + 1 :=
        ⟨fuel - 1, by simp [jfuel, jfuelElems] at hf; omega⟩
      simp [stringify, parseValue, isDigit]
    | cons x xs =>
      intro fuel rest hf hrest
      obtain ⟨f, rfl⟩ : ∃ f, fuel = f + 1 :=
        ⟨fuel - 1, by simp [jfuel, jfuelElems] at hf; omega⟩
      have hfx : jfuel x ≤ f := by simp [jfuel, jfuelElems] at hf; omega
      have hfxs : jfuelElems xs ≤ f := by simp [jfuel, jfuelElems] at hf; omega
      have hx := parseValue_stringify x f (stringifyElems xs ++ 93 :: rest) hfx
        (noDigitHead_elemsTail xs rest)
      have hxs := parseElems_stringify xs f rest hfxs
      obtain ⟨c, t, hct, hc93⟩ := stringify_head x
      have hstr : stringify (Json.jarr (x :: xs)) ++ rest
          = 91 :: (c :: (t ++ (stringifyElems xs ++ 93 :: rest))) := by
        simp [stringify, List.append_assoc, hct]
      rw [hstr]
      have hback : c :: (t ++ (stringifyElems xs ++ 93 :: rest))
          = stringify x ++ (stringifyElems xs ++ 93 :: rest) := by
        rw [hct]
        simp
      simp [parseValue, isDigit, hc93, hback, hx, hxs]
  | jobj m =>
    cases m with
    | nil =>
      intro fuel rest hf _
      obtain ⟨f, rfl⟩ : ∃ f, fuel = f + 1 :=
        ⟨fuel - 1, by simp [jfuel, jfuelMembers] at hf; omega⟩
      simp [stringify, parseValue, isDigit]
    | cons mm ms =>
      intro fuel rest hf hrest
      obtain ⟨f, rfl⟩ : ∃ f, fuel = f + 1 :=
        ⟨fuel - 1, by simp [jfuel, jfuelMembers] at hf; omega⟩
      have hfm : jfuelMember mm ≤ f := by simp [jfuel, jfuelMembers] at hf; omega
      have hfms : jfuelMembers ms ≤ f := by simp [jfuel, jfuelMembers] at hf; omega
      have hm := parseMember_stringify mm f (stringifyMembers ms ++ 125 :: rest) hfm
        (noDigitHead_membersTail ms rest)
      have hms := parseMembers_stringify ms f rest hfms
      obtain ⟨k, v⟩ := mm
      have hstr : stringify (Json.jobj ((k, v) :: ms)) ++ rest
          = 123 :: (34 :: (escapeString k ++ 34 :: 58 :: (stringify v
              ++ (stringifyMembers ms ++ 125 :: rest)))) := by
        simp [stringify, stringifyMember, List.append_assoc]
      rw [hstr]
      have hback : (34 : Nat) :: (escapeString k ++ 34 :: 58 :: (stringify v
              ++ (stringifyMembers ms ++ 125 :: rest)))
          = stringifyMember (k, v) ++ (stringifyMembers ms ++ 125 :: rest) := by
        simp [stringifyMember, List.append_assoc]
      simp [parseValue, isDigit, hback, hm, hms]

theorem parseElems_stringify (vs : List Json) :
    ∀ fuel rest, jfuelElems vs ≤ fuel →
      parseElems fuel (stringifyElems vs ++ 93 :: rest) = some (vs, rest) := by
  cases vs with
  | nil =>
    intro fuel rest hf
    obtain ⟨f, rfl⟩ : ∃ f, fuel = f + 1 := ⟨fuel - 1, by simp [jfuelElems] at hf; omega⟩
    simp [stringifyElems, parseElems]
  | cons x xs =>
    intro fuel rest hf
    obtain ⟨f, rfl⟩ : ∃ f, fuel = f + 1 := ⟨fuel - 1, by simp [jfuelElems] at hf; omega⟩
    have hfx : jfuel x ≤ f := by simp [jfuelElems] at hf; omega
    have hfxs : jfuelElems xs ≤ f := by simp [jfuelElems] at hf; omega
    have hx := parseValue_stringify x f (stringifyElems xs ++ 93 :: rest) hfx
      (noDigitHead_elemsTail xs rest)
    have hxs := parseElems_stringify xs f rest hfxs
    have hstr : stringifyElems (x :: xs) ++ 93 :: rest
        = 44 :: (stringify x ++ (stringifyElems xs ++ 93 :: rest)) := by
      simp [stringifyElems, List.append_assoc]
    rw [hstr]
    simp [parseElems, hx, hxs]

theorem parseMember_stringify (m : List Nat × Json) :
    ∀ fuel tail, jfuelMember m ≤ fuel → noDigitHead tail →
      parseMember fuel (stringifyMember m ++ tail) = some (m, tail) := by
  obtain ⟨k, v⟩ := m
  intro fuel tail hf htail
  obtain ⟨f, rfl⟩ : ∃ f, fuel = f + 1 := ⟨fuel - 1, by simp [jfuelMember] at hf; omega⟩
  have hfv : jfuel v ≤ f := by simp [jfuelMember] at hf; omega
  have hv := parseValue_stringify v f tail hfv htail
  have hstr : stringifyMember (k, v) ++ tail
      = 34 :: (escapeString k ++ 34 :: (58 :: (stringify v ++ tail))) := by
    simp [stringifyMember, List.append_assoc]
  rw [hstr]
  simp only [parseMember]
  rw [parseStringRest_escape k]
  · simp [hv]
  · have := escapeString_length_ge k
    simp
    omega

theorem parseMembers_stringify (ms : List (List Nat × Json)) :
    ∀ fuel rest, jfuelMembers ms ≤ fuel →
      parseMembers fuel (stringifyMembers ms ++ 125 :: rest) = some (ms, rest) := by
  cases ms with
  | nil =>
    intro fuel rest hf
    obtain ⟨f, rfl⟩ : ∃ f, fuel = f + 1 := ⟨fuel - 1, by simp [jfuelMembers] at hf; omega⟩
    simp [stringifyMembers, parseMembers]
  | cons mm ms =>
    intro fuel rest hf
    obtain ⟨f, rfl⟩ : ∃ f, fuel = f + 1 := ⟨fuel - 1, by simp [jfuelMembers] at hf; omega⟩
    have hfm : jfuelMember mm ≤ f := by simp [jfuelMembers] at hf; omega
    have hfms : jfuelMembers ms ≤ f := by simp [jfuelMembers] at hf; omega
    have hm := parseMember_stringify mm f (stringifyMembers ms ++ 125 :: rest) hfm
      (noDigitHead_membersTail ms rest)
    have hms := parseMembers_stringify ms f rest hfms
    have hstr : stringifyMembers (mm :: ms) ++ 125 :: rest
        = 44 :: (stringifyMember mm ++ (stringifyMembers ms ++ 125 :: rest)) := by
      simp [stringifyMembers, List.append_assoc]
    rw [hstr]
    simp [parseMembers, hm, hms]

end

mutual

theorem jfuel_le_length (v : Json) : jfuel v ≤ (stringify v).length := by
  cases v with
  | jnull => simp [jfuel, stringify]
  | jbool b => cases b <;> simp [jfuel, stringify]
  | jnum n => have := stringify_length_pos (Json.jnum n); simp [jfuel]; omega
  | jstr s => simp [jfuel, stringify]
  | jarr l =>
    cases l with
    | nil => simp [jfuel, jfuelElems, stringify]
    | cons x xs =>
      have h1 := jfuel_le_length x
      have h2 := jfuelElems_le_length xs
      have h3 := stringify_length_pos x
      simp [jfuel, jfuelElems, stringify]
      omega
  | jobj m =>
    cases m with
    | nil => simp [jfuel, jfuelMembers, stringify]
    | cons mm ms =>
      have h1 := jfuelMember_le_length mm
      have h2 := jfuelMembers_le_length ms
      have h3 := stringifyMember_length_pos mm
      simp [jfuel, jfuelMembers, stringify]
      omega

theorem jfuelElems_le_length (vs : List Json) :
    jfuelElems vs ≤ (stringifyElems vs).length + 1 := by
  cases vs with
  | nil => simp [jfuelElems, stringifyElems]
  | cons x xs =>
    have h1 := jfuel_le_length x
    have h2 := jfuelElems_le_length xs
    simp [jfuelElems, stringifyElems]
    omega

theorem jfuelMember_le_length (m : List Nat × Json) :
    jfuelMember m ≤ (stringifyMember m).length := by
  obtain ⟨k, v⟩ := m
  have h1 := jfuel_le_length v
  simp [jfuelMember, stringifyMember]
  omega

theorem jfuelMembers_le_length (ms : List (List Nat × Json)) :
    jfuelMembers ms ≤ (stringifyMembers ms).length + 1 := by
  cases ms with
  | nil => simp [jfuelMembers, stringifyMembers]
  | cons mm ms =>
    have h1 := jfuelMember_le_length mm
    have h2 := jfuelMembers_le_length ms
    simp [jfuelMembers, stringifyMembers]
    omega

end

/-- Round trip of the modelled serializer and parser: decoding the canonical
encoding of any JSON value yields that value. -/
theorem parseJson_stringify (v : Json) : parseJson (stringify v) = some v := by
  have hfuel : jfuel v ≤ (stringify v).length + 1 := by
    have := jfuel_le_length v
    omega
  have h := parseValue_stringify v ((stringify v).length + 1) [] hfuel noDigitHead_nil
  rw [List.append_nil] at h
  simp [parseJson, h]

/-- The source constant `SAFE_CHUNK_SIZE_BYTES` (chunkedCache.ts line 3).
The name says bytes; the splitter below slices by UTF-16 code units. -/
def safeChunkSizeBytes : Nat := 1500000

/-- Fuel-indexed slicing loop.  One step per produced chunk; callers pass the
text length as fuel, which suffices whenever the bound is positive. -/
def splitStringGo : Nat → List Nat → Nat → List (List Nat)
  | 0, _, _ => []
  | fuel + 1, text, maxSize =>
    if text = [] then []
    else text.take maxSize :: splitStringGo fuel (text.drop maxSize) maxSize

/-- The slicing loop of `splitIntoChunks` (chunkedCache.ts lines 12-19):
`for (startIndex = 0; startIndex < jsonString.length; startIndex += maxChunkSizeBytes)
 chunks.push(jsonString.slice(startIndex, startIndex + maxChunkSizeBytes))`.
`slice`/`length` operate on UTF-16 code units, so the model slices the code
unit list with take/drop.  The JS loop never terminates when the bound is 0
and the text is nonempty; all theorems assume a positive bound, under which
the fuel `text.length` is sufficient. -/
def splitString (text : List Nat) (maxChunkSizeBytes : Nat) : List (List Nat) :=
  splitStringGo text.length text maxChunkSizeBytes

/-- The `chunks.join("")` step of `reassembleChunks` (chunkedCache.ts line 25). -/
def joinChunks : List (List Nat) → List Nat
  | [] => []
  | c :: cs => c ++ joinChunks cs

/-- Model of `reassembleChunks` (chunkedCache.ts lines 24-27): join the
fragments and `JSON.parse` the result; `none` models the parse throwing. -/
def reassembleChunks (chunks : List (List Nat)) : Option Json :=
  parseJson (joinChunks chunks)

/-- UTF-8 byte count of one UTF-16 code unit as `TextEncoder` counts it, for
scalar values in the basic multilingual plane (surrogate pairing is not
modelled; no claim depends on supplementary-plane precision). -/
def utf8UnitLength (c : Nat) : Nat :=
  if c < 128 then 1 else if c < 2048 then 2 else 3

/-- UTF-8 byte length of a code-unit string, `new TextEncoder().encode(s).length`. -/
def utf8Length (s : List Nat) : Nat := (s.map utf8UnitLength).sum

/-- JavaScript values as far as the cache sees them: JSON-serializable data,
or values on which `JSON.stringify` yields `undefined` (the value `undefined`
itself, or a bare function). -/
inductive JsValue where
  | ofJson : Json → JsValue
  | undefVal : JsValue
  | funcVal : JsValue

/-- Top-level `JSON.stringify`: `undefined` and functions have no encoding. -/
def jsonStringifyTop : JsValue → Option (List Nat)
  | .ofJson v => some (stringify v)
  | .undefVal => none
  | .funcVal => none

/-- Model of `splitIntoChunks` (chunkedCache.ts lines 5-22).  It stringifies
the data and slices the encoding; when `JSON.stringify` returns `undefined`
the JS code throws a TypeError reading `jsonString.length`, modelled as
`Except.error`.  The source gives `maxChunkSizeBytes` the default
`SAFE_CHUNK_SIZE_BYTES`; the model passes the bound explicitly and the
orchestrator supplies the default. -/
def splitIntoChunks (data : JsValue) (maxChunkSizeBytes : Nat) :
    Except Unit (List (List Nat) × List Nat) :=
  match jsonStringifyTop data with
  | none => Except.error ()
  | some jsonString => Except.ok (splitString jsonString maxChunkSizeBytes, jsonString)

theorem splitStringGo_join (fuel : Nat) :
    ∀ text maxSize, 0 < maxSize → text.length ≤ fuel →
      joinChunks (splitStringGo fuel text maxSize) = text := by
  induction fuel with
  | zero =>
    intro text maxSize _ hlen
    have : text = [] := by
      cases text with
      | nil => rfl
      | cons c t => simp at hlen
    subst this
    simp [splitStringGo, joinChunks]
  | succ fuel ih =>
    intro text maxSize hpos hlen
    by_cases hnil : text = []
    · subst hnil; simp [splitStringGo, joinChunks]
    · have hlt : (text.drop maxSize).length ≤ fuel := by
        have h0 : 0 < text.length := List.length_pos.mpr hnil
        simp [List.length_drop]
        omega
      simp only [splitStringGo, hnil, if_false, joinChunks]
      rw [ih (text.drop maxSize) maxSize hpos hlt]
      exact List.take_append_drop maxSize text

theorem splitString_join (text : List Nat) (maxSize : Nat) (h : 0 < maxSize) :
    joinChunks (splitString text maxSize) = text :=
  splitStringGo_join text.length text maxSize h (le_refl _)

theorem splitStringGo_chunk_le (fuel : Nat) :
    ∀ text maxSize chunk, chunk ∈ splitStringGo fuel text maxSize →
      chunk.length ≤ maxSize := by
  induction fuel with
  | zero => intro text maxSize chunk h; simp [splitStringGo] at h
  | succ fuel ih =>
    intro text maxSize chunk h
    by_cases hnil : text = []
    · simp [splitStringGo, hnil] at h
    · simp only [splitStringGo, hnil, if_false, List.mem_cons] at h
      rcases h with h | h
      · subst h
        simp [List.length_take]
      · exact ih _ _ _ h

theorem splitString_chunk_le (text : List Nat) (maxSize : Nat) (chunk : List Nat)
    (h : chunk ∈ splitString text maxSize) : chunk.length ≤ maxSize :=
  splitStringGo_chunk_le text.length text maxSize chunk h

theorem splitString_ne_nil (text : List Nat) (maxSize : Nat) (hne : text ≠ []) :
    splitString text maxSize ≠ [] := by
  unfold splitString
  cases htext : text with
  | nil => exact absurd htext hne
  | cons c t =>
    simp [splitStringGo]

/-- Cache keys are JS strings (code-unit lists). -/
abbrev Key := List Nat

/-- Values held by the external persistent cache for this module: the
metadata record `{ chunkCount }` or one chunk string. -/
inductive StoredVal where
  | metaVal : Nat → StoredVal
  | chunkVal : List Nat → StoredVal
deriving DecidableEq

/-- The external persistent cache behind `unstable_cache`, as an association
list from derived cache keys to stored values, newest entry first. -/
abbrev Store := List (Key × StoredVal)

def storeLookup (st : Store) (k : Key) : Option StoredVal :=
  match st with
  | [] => none
  | (k2, v) :: rest => if k2 = k then some v else storeLookup rest k

/-- External deletion of one entry (expiry/eviction of a single key). -/
def storeErase (st : Store) (k : Key) : Store :=
  st.filter fun e => ! decide (e.1 = k)

/-- Code units of the literal `::chunk` inside `createChunkKey`. -/
def chunkLit : List Nat := [58, 58, 99, 104, 117, 110, 107]

/-- Code units of the literal `metadata::` prefixed to the metadata key. -/
def metadataLit : List Nat := [109, 101, 116, 97, 100, 97, 116, 97, 58, 58]

/-- Model of `createChunkKey` (chunkedCache.ts lines 29-31):
`` `${prefix}::chunk${chunkIndex}` ``. -/
def createChunkKey (p : Key) (chunkIndex : Nat) : Key :=
  p ++ chunkLit ++ natRepr chunkIndex

/-- The `metadataKey` of one cache instance (line 175):
`` `metadata::${cacheKeyPrefix}` ``. -/
def metadataKeyOf (p : Key) : Key := metadataLit ++ p

/-- The `` `${key}:${revalidateSeconds}` `` cacheKey derived inside
`storeCachedValue` and `getCachedValue` (lines 50 and 85). -/
def cacheKeyOf (k : Key) (revalidateSeconds : Nat) : Key :=
  k ++ [58] ++ natRepr revalidateSeconds

/-- Model of `storeCachedValue` (lines 44-73): derive the cacheKey, bridge
the value through the request-scoped map, and invoke the `unstable_cache`
function; its successful effect is that the external cache holds the value
under the cacheKey.  `putOk` says which external writes succeed; a failing
write is a thrown error, and nothing on the source's store path catches it. -/
def storeCachedValue (putOk : Key → Bool) (st : Store) (key : Key) (v : StoredVal)
    (revalidateSeconds : Nat) : Except Unit Store :=
  let cacheKey := cacheKeyOf key revalidateSeconds
  if putOk cacheKey then Except.ok ((cacheKey, v) :: st) else Except.error ()

/-- Model of `getCachedValue` (lines 80-111): a present entry is returned
without executing the wrapped function; on a cache miss the wrapped function
throws (the bridge map is empty on retrieval) and on an external store or
decode failure the cache layer throws; the surrounding try/catch maps every
throw to `null`.  `readOk` says which external reads succeed.  The function
is total: the caller never observes an exception. -/
def getCachedValue (readOk : Key → Bool) (st : Store) (key : Key)
    (revalidateSeconds : Nat) : Option StoredVal :=
  let cacheKey := cacheKeyOf key revalidateSeconds
  if readOk cacheKey then storeLookup st cacheKey else none

/-- Model of `storeMetadata` (lines 113-124). -/
def storeMetadata (putOk : Key → Bool) (st : Store) (metadataKey : Key)
    (chunkCount revalidateSeconds : Nat) : Except Unit Store :=
  storeCachedValue putOk st metadataKey (StoredVal.metaVal chunkCount) revalidateSeconds

/-- Model of `retrieveMetadata` (lines 126-141).  The TS cast to `{ chunkCount }` is
unchecked, but within one cache instance metadata and chunk cache keys never
collide (`cacheKey_chunk_ne_meta` below), so matching on the stored
constructor is faithful in every reachable state. -/
def retrieveMetadata (readOk : Key → Bool) (st : Store) (metadataKey : Key)
    (revalidateSeconds : Nat) : Option Nat :=
  match getCachedValue readOk st metadataKey revalidateSeconds with
  | some (StoredVal.metaVal n) => some n
  | _ => none

/-- Model of `storeChunk` (lines 143-149). -/
def storeChunk (putOk : Key → Bool) (st : Store) (chunkKey : Key)
    (chunkData : List Nat) (revalidateSeconds : Nat) : Except Unit Store :=
  storeCachedValue putOk st chunkKey (StoredVal.chunkVal chunkData) revalidateSeconds

/-- Model of `retrieveChunk` (lines 151-168). -/
def retrieveChunk (readOk : Key → Bool) (st : Store) (chunkKey : Key)
    (revalidateSeconds : Nat) : Option (List Nat) :=
  match getCachedValue readOk st chunkKey revalidateSeconds with
  | some (StoredVal.chunkVal s) => some s
  | _ => none

/-- The writes issued by `storeInCache` for the chunk list:
`chunks.map((chunk, index) => storeChunk(createChunkKey(prefix, index), chunk, ...))`,
with the running index made explicit. -/
def chunkWrites (p : Key) : List (List Nat) → Nat → List (Key × StoredVal)
  | [], _ => []
  | c :: cs, i => (createChunkKey p i, StoredVal.chunkVal c) :: chunkWrites p cs (i + 1)

/-- Apply the store-back writes (the `Promise.all` of `storeMetadata` and the
`storeChunk` calls, lines 224-233).  All keys written are pairwise distinct,
so on the success path the result is independent of completion order; any
failing write rejects the whole `Promise.all`, modelled as an error (no
property below observes the partial store state of a failed store-back). -/
def writeAll (putOk : Key → Bool) : Store → List (Key × StoredVal) → Nat → Except Unit Store
  | st, [], _ => Except.ok st
  | st, (k, v) :: ws, r =>
    match storeCachedValue putOk st k v r with
    | Except.ok st2 => writeAll putOk st2 ws r
    | Except.error e => Except.error e

/-- Model of `retrieveFromCache` as in src/lib/chunkedCache.ts (lines 177-213): absent
chunks are filtered out and reassembly is attempted on whatever remains;
there is no completeness check (unlike the src/unnamed/part_000 variant). -/
def retrieveFromCache (readOk : Key → Bool) (st : Store) (p : Key) (r : Nat) :
    Option (Json × Nat) :=
  match retrieveMetadata readOk st (metadataKeyOf p) r with
  | none => none
  | some chunkCount =>
    let chunks := (List.range chunkCount).map fun i =>
      retrieveChunk readOk st (createChunkKey p i) r
    let validChunks := chunks.filterMap id
    match reassembleChunks validChunks with
    | some data => some (data, chunkCount)
    | none => none

/-- Model of `retrieveFromCache` of src/unnamed/part_000 (lines 178-222), which
additionally validates that every expected chunk is present before
reassembling, and reports `validChunks.length` as the hit's chunk count. -/
def retrieveFromCacheChecked (readOk : Key → Bool) (st : Store) (p : Key) (r : Nat) :
    Option (Json × Nat) :=
  match retrieveMetadata readOk st (metadataKeyOf p) r with
  | none => none
  | some expectedChunkCount =>
    let chunks := (List.range expectedChunkCount).map fun i =>
      retrieveChunk readOk st (createChunkKey p i) r
    let validChunks := chunks.filterMap id
    if validChunks.length = expectedChunkCount then
      match reassembleChunks validChunks with
      | some data => some (data, validChunks.length)
      | none => none
    else none

/-- Errors observable by the caller of `get` (thrown JS values): a producer
error propagated as-is, the TypeError raised when the fresh value has no
JSON encoding, or an uncaught store-back failure. -/
inductive GetErr (ε : Type) where
  | producerErr : ε → GetErr ε
  | typeErrorUndefined : GetErr ε
  | storeErr : GetErr ε

/-- Model of `storeInCache` (lines 215-234): split under the default bound, then issue
the metadata write and one write per chunk. -/
def storeInCache {ε : Type} (putOk : Key → Bool) (st : Store) (p : Key) (r : Nat)
    (data : JsValue) : Except (GetErr ε) Store :=
  match splitIntoChunks data safeChunkSizeBytes with
  | Except.error _ => Except.error GetErr.typeErrorUndefined
  | Except.ok (chunks, _jsonString) =>
    match writeAll putOk st
        ((metadataKeyOf p, StoredVal.metaVal chunks.length) :: chunkWrites p chunks 0) r with
    | Except.ok st2 => Except.ok st2
    | Except.error _ => Except.error GetErr.storeErr

/-- Model of `get` (lines 236-250).  The result records the payload returned to the
caller, the number of producer invocations performed by this call (the
source has exactly one `fetchData()` call site, reached only on the miss
path), and the resulting store state. -/
def get {ε : Type} (readOk putOk : Key → Bool) (st : Store) (p : Key) (r : Nat)
    (producer : Except ε JsValue) : Except (GetErr ε) (JsValue × Nat × Store) :=
  match retrieveFromCache readOk st p r with
  | some (data, _chunkCount) => Except.ok (JsValue.ofJson data, 0, st)
  | none =>
    match producer with
    | Except.error e => Except.error (GetErr.producerErr e)
    | Except.ok freshData =>
      match storeInCache putOk st p r freshData with
      | Except.ok st2 => Except.ok (freshData, 1, st2)
      | Except.error err => Except.error err

/-- The oracle describing an external store whose calls all succeed. -/
def alwaysOk : Key → Bool := fun _ => true

theorem cacheKey_chunkKey_inj (p : Key) (r i j : Nat)
    (h : cacheKeyOf (createChunkKey p i) r = cacheKeyOf (createChunkKey p j) r) : i = j := by
  unfold cacheKeyOf createChunkKey at h
  simp only [List.append_assoc, List.cons_append, List.nil_append] at h
  have h2 : natRepr i ++ 58 :: natRepr r = natRepr j ++ 58 :: natRepr r := by
    have := List.append_cancel_left (List.append_cancel_left h)
    simpa using this
  have hnd : noDigitHead (58 :: natRepr r) := noDigitHead_cons (by simp [isDigit])
  have hi := parseNat_natRepr i (58 :: natRepr r) hnd
  have hj := parseNat_natRepr j (58 :: natRepr r) hnd
  rw [h2, hj] at hi
  simp at hi
  omega

theorem cacheKey_chunk_ne_meta (p : Key) (r i : Nat) :
    cacheKeyOf (createChunkKey p i) r ≠ cacheKeyOf (metadataKeyOf p) r := by
  intro h
  have hcount := congrArg (List.count 104) h
  unfold cacheKeyOf createChunkKey metadataKeyOf chunkLit metadataLit at hcount
  simp only [List.count_append] at hcount
  have hi : List.count 104 (natRepr i) = 0 := natRepr_count_eq_zero (by omega)
  have hr : List.count 104 (natRepr r) = 0 := natRepr_count_eq_zero (by omega)
  rw [hi, hr] at hcount
  simp [List.count_cons, List.count_nil] at hcount

/-- The store state after the writes of one store-back all succeed; writes
are applied in issue order, newest first in the association list. -/
def applyWrites (st : Store) (ws : List (Key × StoredVal)) (r : Nat) : Store :=
  ws.foldl (fun s w => (cacheKeyOf w.1 r, w.2) :: s) st

theorem writeAll_ok (putOk : Key → Bool) (r : Nat) :
    ∀ (ws : List (Key × StoredVal)) (st : Store),
      (∀ w ∈ ws, putOk (cacheKeyOf w.1 r) = true) →
      writeAll putOk st ws r = Except.ok (applyWrites st ws r) := by
  intro ws
  induction ws with
  | nil => intro st _; simp [writeAll, applyWrites]
  | cons w ws ih =>
    intro st hok
    obtain ⟨k, v⟩ := w
    have hw : putOk (cacheKeyOf k r) = true := hok (k, v) (by simp)
    simp only [writeAll, storeCachedValue, hw, if_true]
    rw [ih _ (fun w hw2 => hok w (by simp [hw2]))]
    rfl

theorem storeLookup_applyWrites_skip (r : Nat) (k : Key) :
    ∀ (ws : List (Key × StoredVal)) (st : Store),
      (∀ w ∈ ws, cacheKeyOf w.1 r ≠ k) →
      storeLookup (applyWrites st ws r) k = storeLookup st k := by
  intro ws
  induction ws with
  | nil => intro st _; simp [applyWrites]
  | cons w ws ih =>
    intro st hne
    obtain ⟨k2, v⟩ := w
    have h2 : cacheKeyOf k2 r ≠ k := hne (k2, v) (by simp)
    show storeLookup (applyWrites ((cacheKeyOf k2 r, v) :: st) ws r) k = storeLookup st k
    rw [ih _ (fun w hw => hne w (by simp [hw]))]
    simp [storeLookup, h2]

theorem chunkWrites_mem (p : Key) :
    ∀ (chunks : List (List Nat)) (i0 : Nat) (w : Key × StoredVal),
      w ∈ chunkWrites p chunks i0 → ∃ jdx, i0 ≤ jdx ∧ w.1 = createChunkKey p jdx := by
  intro chunks
  induction chunks with
  | nil => intro i0 w h; simp [chunkWrites] at h
  | cons c cs ih =>
    intro i0 w h
    simp only [chunkWrites, List.mem_cons] at h
    rcases h with h | h
    · exact ⟨i0, le_refl _, by rw [h]⟩
    · obtain ⟨jdx, hj1, hj2⟩ := ih (i0 + 1) w h
      exact ⟨jdx, by omega, hj2⟩

theorem storeLookup_applyWrites_chunk (p : Key) (r : Nat) :
    ∀ (chunks : List (List Nat)) (i0 : Nat) (st : Store) (i : Nat) (hi : i < chunks.length),
      storeLookup (applyWrites st (chunkWrites p chunks i0) r)
        (cacheKeyOf (createChunkKey p (i0 + i)) r)
        = some (StoredVal.chunkVal (chunks.get ⟨i, hi⟩)) := by
  intro chunks
  induction chunks with
  | nil => intro i0 st i hi; simp at hi
  | cons c cs ih =>
    intro i0 st i hi
    show storeLookup
        (applyWrites ((cacheKeyOf (createChunkKey p i0) r, StoredVal.chunkVal c) :: st)
          (chunkWrites p cs (i0 + 1)) r) _ = _
    cases i with
    | zero =>
      rw [storeLookup_applyWrites_skip]
      · simp [storeLookup]
      · intro w hw
        obtain ⟨jdx, hj1, hj2⟩ := chunkWrites_mem p cs (i0 + 1) w hw
        rw [hj2]
        intro heq
        have := cacheKey_chunkKey_inj p r jdx (i0 + 0) heq
        omega
    | succ i =>
      have hlt : i < cs.length := by simpa using hi
      have := ih (i0 + 1) ((cacheKeyOf (createChunkKey p i0) r, StoredVal.chunkVal c) :: st) i hlt
      have harith : i0 + 1 + i = i0 + (i + 1) := by omega
      rw [harith] at this
      rw [this]
      simp

/-- The write set of one successful store-back of payload `j` under prefix `p`. -/
def storeBackWrites (p : Key) (j : Json) : List (Key × StoredVal) :=
  (metadataKeyOf p,
      StoredVal.metaVal (splitString (stringify j) safeChunkSizeBytes).length)
    :: chunkWrites p (splitString (stringify j) safeChunkSizeBytes) 0

theorem filterMap_id_map_some (l : List (List Nat)) :
    (l.map (fun s => some s)).filterMap id = l := by
  induction l with
  | nil => simp
  | cons c cs ih => simp [ih]

theorem storeInCache_ok {ε : Type} (p : Key) (r : Nat) (j : Json) (st0 : Store) :
    storeInCache (ε := ε) alwaysOk st0 p r (JsValue.ofJson j)
      = Except.ok (applyWrites st0 (storeBackWrites p j) r) := by
  have hw := writeAll_ok alwaysOk r (storeBackWrites p j) st0 (fun w _ => rfl)
  unfold storeBackWrites at hw
  simp only [storeInCache, splitIntoChunks, jsonStringifyTop, hw]
  rfl

theorem storeLookup_meta_after_store (p : Key) (r : Nat) (j : Json) (st0 : Store) :
    storeLookup (applyWrites st0 (storeBackWrites p j) r)
      (cacheKeyOf (metadataKeyOf p) r)
      = some (StoredVal.metaVal (splitString (stringify j) safeChunkSizeBytes).length) := by
  unfold storeBackWrites
  show storeLookup
    (applyWrites ((cacheKeyOf (metadataKeyOf p) r,
        StoredVal.metaVal (splitString (stringify j) safeChunkSizeBytes).length) :: st0)
      (chunkWrites p (splitString (stringify j) safeChunkSizeBytes) 0) r) _ = _
  rw [storeLookup_applyWrites_skip]
  · simp [storeLookup]
  · intro w hw
    obtain ⟨jdx, -, hj2⟩ := chunkWrites_mem p _ 0 w hw
    rw [hj2]
    exact cacheKey_chunk_ne_meta p r jdx

theorem storeLookup_chunk_after_store (p : Key) (r : Nat) (j : Json) (st0 : Store)
    (i : Nat) (hi : i < (splitString (stringify j) safeChunkSizeBytes).length) :
    storeLookup (applyWrites st0 (storeBackWrites p j) r)
        (cacheKeyOf (createChunkKey p i) r)
      = some (StoredVal.chunkVal
          ((splitString (stringify j) safeChunkSizeBytes).get ⟨i, hi⟩)) := by
  unfold storeBackWrites
  show storeLookup
    (applyWrites ((cacheKeyOf (metadataKeyOf p) r,
        StoredVal.metaVal (splitString (stringify j) safeChunkSizeBytes).length) :: st0)
      (chunkWrites p (splitString (stringify j) safeChunkSizeBytes) 0) r) _ = _
  have h := storeLookup_applyWrites_chunk p r (splitString (stringify j) safeChunkSizeBytes)
    0 ((cacheKeyOf (metadataKeyOf p) r,
        StoredVal.metaVal (splitString (stringify j) safeChunkSizeBytes).length) :: st0) i hi
  simpa using h

theorem retrieveFromCache_after_store (p : Key) (r : Nat) (j : Json) (st0 : Store) :
    retrieveFromCache alwaysOk (applyWrites st0 (storeBackWrites p j) r) p r
      = some (j, (splitString (stringify j) safeChunkSizeBytes).length) := by
  have hmeta := storeLookup_meta_after_store p r j st0
  have hchunk := storeLookup_chunk_after_store p r j st0
  have hm : retrieveMetadata alwaysOk (applyWrites st0 (storeBackWrites p j) r)
      (metadataKeyOf p) r
      = some (splitString (stringify j) safeChunkSizeBytes).length := by
    simp [retrieveMetadata, getCachedValue, alwaysOk, hmeta]
  have hmap : (List.range (splitString (stringify j) safeChunkSizeBytes).length).map
        (fun i => retrieveChunk alwaysOk (applyWrites st0 (storeBackWrites p j) r)
          (createChunkKey p i) r)
      = (splitString (stringify j) safeChunkSizeBytes).map (fun s => some s) := by
    apply List.ext_getElem
    · simp
    · intro i h1 h2
      simp only [List.getElem_map, List.getElem_range]
      have hi : i < (splitString (stringify j) safeChunkSizeBytes).length := by
        simpa using h1
      simp [retrieveChunk, getCachedValue, alwaysOk, hchunk i hi]
  have hjoin : joinChunks (splitString (stringify j) safeChunkSizeBytes) = stringify j :=
    splitString_join _ _ (by norm_num [safeChunkSizeBytes])
  simp [retrieveFromCache, hm, hmap, filterMap_id_map_some, reassembleChunks, hjoin,
    parseJson_stringify]

theorem getCachedValue_empty (readOk : Key → Bool) (k : Key) (r : Nat) :
    getCachedValue readOk [] k r = none := by
  simp [getCachedValue, storeLookup]

theorem retrieveFromCache_empty (readOk : Key → Bool) (p : Key) (r : Nat) :
    retrieveFromCache readOk [] p r = none := by
  simp [retrieveFromCache, retrieveMetadata, getCachedValue_empty]

theorem splitStringGo_fuel_irrel :
    ∀ (f1 f2 : Nat) (text : List Nat) (B : Nat), 0 < B →
      text.length ≤ f1 → text.length ≤ f2 →
      splitStringGo f1 text B = splitStringGo f2 text B := by
  intro f1
  induction f1 with
  | zero =>
    intro f2 text B hB h1 h2
    have htext : text = [] := by
      cases text with
      | nil => rfl
      | cons c t => simp at h1
    subst htext
    cases f2 with
    | zero => rfl
    | succ f2 => simp [splitStringGo]
  | succ f1 ih =>
    intro f2 text B hB h1 h2
    by_cases hnil : text = []
    · subst hnil
      cases f2 with
      | zero => simp [splitStringGo]
      | succ f2 => simp [splitStringGo]
    · obtain ⟨g2, rfl⟩ : ∃ g2, f2 = g2 + 1 := by
        have : 0 < text.length := List.length_pos.mpr hnil
        exact ⟨f2 - 1, by omega⟩
      simp only [splitStringGo, hnil, if_false]
      have h0 : 0 < text.length := List.length_pos.mpr hnil
      have hd : (text.drop B).length ≤ f1 := by simp [List.length_drop]; omega
      have hd2 : (text.drop B).length ≤ g2 := by simp [List.length_drop]; omega
      rw [ih g2 (text.drop B) B hB hd hd2]

theorem splitString_append_block (a b : List Nat) (B : Nat)
    (ha : a.length = B) (hB : 0 < B) :
    splitString (a ++ b) B = a :: splitString b B := by
  unfold splitString
  have hne : a ++ b ≠ [] := by
    intro h
    have := congrArg List.length h
    simp [ha] at this
    omega
  obtain ⟨f, hf⟩ : ∃ f, (a ++ b).length = f + 1 := by
    refine ⟨(a ++ b).length - 1, ?_⟩
    have : 0 < (a ++ b).length := List.length_pos.mpr hne
    omega
  rw [hf]
  simp only [splitStringGo, hne, if_false]
  rw [List.take_left' ha, List.drop_left' ha]
  congr 1
  apply splitStringGo_fuel_irrel _ _ _ _ hB
  · have : (a ++ b).length = B + b.length := by simp [ha]
    omega
  · exact le_refl _

theorem splitString_small (b : List Nat) (B : Nat) (hne : b ≠ []) (hb : b.length ≤ B) :
    splitString b B = [b] := by
  unfold splitString
  obtain ⟨f, hf⟩ : ∃ f, b.length = f + 1 := by
    refine ⟨b.length - 1, ?_⟩
    have : 0 < b.length := List.length_pos.mpr hne
    omega
  rw [hf]
  simp only [splitStringGo, hne, if_false]
  rw [List.take_of_length_le hb, List.drop_of_length_le hb]
  cases f with
  | zero => simp [splitStringGo]
  | succ f => simp [splitStringGo]

theorem storeLookup_erase (st : Store) (k k2 : Key) :
    storeLookup (storeErase st k) k2
      = if k2 = k then none else storeLookup st k2 := by
  induction st with
  | nil => by_cases h : k2 = k <;> simp [storeErase, storeLookup, h]
  | cons e rest ih =>
    obtain ⟨ke, ve⟩ := e
    by_cases hek : ke = k
    · have hf : storeErase ((ke, ve) :: rest) k = storeErase rest k := by
        simp [storeErase, List.filter_cons, hek]
      rw [hf, ih]
      by_cases h2 : k2 = k
      · simp [h2]
      · have hne : ¬ (ke = k2) := by
          rw [hek]
          intro h
          exact h2 h.symm
        simp [storeLookup, hne, h2]
    · have hf : storeErase ((ke, ve) :: rest) k = (ke, ve) :: storeErase rest k := by
        simp [storeErase, List.filter_cons, hek]
      rw [hf]
      by_cases h2 : ke = k2
      · subst h2
        have hk2 : ¬ (ke = k) := hek
        simp [storeLookup, fun h => hk2 (h : ke = k)]
      · simp [storeLookup, h2, ih]

theorem storeLookup_chunk_after_store_of_getElem (p : Key) (r : Nat) (j : Json)
    (st0 : Store) (i : Nat) (chunk : List Nat)
    (h : (splitString (stringify j) safeChunkSizeBytes)[i]? = some chunk) :
    storeLookup (applyWrites st0 (storeBackWrites p j) r)
        (cacheKeyOf (createChunkKey p i) r)
      = some (StoredVal.chunkVal chunk) := by
  have hi : i < (splitString (stringify j) safeChunkSizeBytes).length := by
    by_contra hge
    rw [List.getElem?_eq_none (by omega)] at h
    cases h
  rw [storeLookup_chunk_after_store p r j st0 i hi]
  rw [List.getElem?_eq_getElem hi] at h
  have : (splitString (stringify j) safeChunkSizeBytes).get ⟨i, hi⟩
      = (splitString (stringify j) safeChunkSizeBytes)[i] := rfl
  rw [this]
  cases h
  rfl

/-- C1 scenario payload: a string of three million 'a' (code unit 97)
characters, whose canonical encoding (3,000,002 code units) is stored as
three chunks under the default bound. -/
def c1Payload : Json := Json.jstr (List.replicate 3000000 97)

/-- First stored chunk of the C1 payload: the opening quote and 1,499,999 'a's. -/
def c1Chunk0 : List Nat := 34 :: List.replicate 1499999 97

/-- Second stored chunk: 1,500,000 'a's. -/
def c1Chunk1 : List Nat := List.replicate 1500000 97

/-- Third stored chunk: the final 'a' and the closing quote. -/
def c1Chunk2 : List Nat := [97, 34]

theorem escapeString_replicate_a (n : Nat) :
    escapeString (List.replicate n 97) = List.replicate n 97 := by
  induction n with
  | zero => simp [escapeString]
  | succ n ih => simp [List.replicate_succ, escapeString, escapeChar, ih]

theorem stringify_replicate_a (n : Nat) :
    stringify (Json.jstr (List.replicate n 97)) = 34 :: (List.replicate n 97 ++ [34]) := by
  simp [stringify, escapeString_replicate_a]

theorem c1Chunk0_length : c1Chunk0.length = safeChunkSizeBytes := by
  show (34 :: List.replicate 1499999 97).length = 1500000
  rw [List.length_cons, List.length_replicate]

theorem c1Chunk1_length : c1Chunk1.length = safeChunkSizeBytes := by
  show (List.replicate 1500000 (97 : Nat)).length = 1500000
  rw [List.length_replicate]

theorem c1_string_decomp :
    stringify c1Payload = c1Chunk0 ++ (c1Chunk1 ++ c1Chunk2) := by
  have h0 : List.replicate 3000000 (97 : Nat)
      = List.replicate (1499999 + (1500000 + 1)) 97 :=
    congrArg (fun n => List.replicate n 97) (by norm_num)
  have h1 : List.replicate 3000000 (97 : Nat)
      = List.replicate 1499999 97 ++ (List.replicate 1500000 97 ++ List.replicate 1 97) := by
    rw [h0, List.replicate_add, List.replicate_add]
  show stringify (Json.jstr (List.replicate 3000000 97)) = _
  rw [stringify_replicate_a, h1, List.replicate_one]
  show 34 :: (List.replicate 1499999 97 ++ (List.replicate 1500000 97 ++ [97]) ++ [34])
      = (34 :: List.replicate 1499999 97) ++ (List.replicate 1500000 97 ++ [97, 34])
  rw [List.cons_append, List.append_assoc, List.append_assoc, List.singleton_append]

theorem c1_split :
    splitString (stringify c1Payload) safeChunkSizeBytes
      = [c1Chunk0, c1Chunk1, c1Chunk2] := by
  rw [c1_string_decomp]
  rw [splitString_append_block c1Chunk0 _ _ c1Chunk0_length
    (by norm_num [safeChunkSizeBytes])]
  rw [splitString_append_block c1Chunk1 _ _ c1Chunk1_length
    (by norm_num [safeChunkSizeBytes])]
  rw [splitString_small c1Chunk2 _ (by simp [c1Chunk2])
    (by simp only [c1Chunk2, safeChunkSizeBytes, List.length_cons, List.length_nil]; omega)]

theorem c1_joined :
    c1Chunk0 ++ c1Chunk2 = stringify (Json.jstr (List.replicate 1500000 97)) := by
  rw [stringify_replicate_a]
  have h0 : List.replicate 1500000 (97 : Nat) = List.replicate (1499999 + 1) 97 :=
    congrArg (fun n => List.replicate n 97) (by norm_num)
  have h1 : List.replicate 1500000 (97 : Nat)
      = List.replicate 1499999 97 ++ List.replicate 1 97 := by
    rw [h0, List.replicate_add]
  rw [h1, List.replicate_one]
  show (34 :: List.replicate 1499999 97) ++ [97, 34]
      = 34 :: ((List.replicate 1499999 97 ++ [97]) ++ [34])
  rw [List.cons_append, List.append_assoc, List.singleton_append]

/-- The truncated payload the damaged cache reassembles: 1,500,000 'a's
instead of the original 3,000,000. -/
def c1Truncated : Json := Json.jstr (List.replicate 1500000 97)

/-- Store after one successful store-back of the C1 payload under prefix
"k" (code unit 107) with the default one-hour revalidate period. -/
def c1Store : Store := applyWrites [] (storeBackWrites [107] c1Payload) 3600

/-- The same store after the external loss of the single fragment with
index 1 (metadata and the other two fragments intact). -/
def c1Damaged : Store := storeErase c1Store (cacheKeyOf (createChunkKey [107] 1) 3600)

theorem getCachedValue_alwaysOk (st : Store) (k : Key) (r : Nat) :
    getCachedValue alwaysOk st k r = storeLookup st (cacheKeyOf k r) := rfl

theorem retrieveMetadata_alwaysOk (st : Store) (mk : Key) (r : Nat) :
    retrieveMetadata alwaysOk st mk r
      = match storeLookup st (cacheKeyOf mk r) with
        | some (StoredVal.metaVal n) => some n
        | _ => none := by
  unfold retrieveMetadata
  rw [getCachedValue_alwaysOk]

theorem retrieveChunk_alwaysOk (st : Store) (k : Key) (r : Nat) :
    retrieveChunk alwaysOk st k r
      = match storeLookup st (cacheKeyOf k r) with
        | some (StoredVal.chunkVal s) => some s
        | _ => none := by
  unfold retrieveChunk
  rw [getCachedValue_alwaysOk]

theorem retrieveFromCache_unfold (readOk : Key → Bool) (st : Store) (p : Key) (r : Nat) :
    retrieveFromCache readOk st p r
      = match retrieveMetadata readOk st (metadataKeyOf p) r with
        | none => none
        | some chunkCount =>
          match reassembleChunks (List.filterMap id ((List.range chunkCount).map
              (fun i => retrieveChunk readOk st (createChunkKey p i) r))) with
          | some data => some (data, chunkCount)
          | none => none := rfl

theorem c1_storeLookup_meta :
    storeLookup c1Damaged (cacheKeyOf (metadataKeyOf [107]) 3600)
      = some (StoredVal.metaVal 3) := by
  have hmk : cacheKeyOf (metadataKeyOf [107]) 3600
      ≠ cacheKeyOf (createChunkKey [107] 1) 3600 :=
    fun h => cacheKey_chunk_ne_meta [107] 3600 1 h.symm
  unfold c1Damaged
  rw [storeLookup_erase, if_neg hmk]
  unfold c1Store
  rw [storeLookup_meta_after_store, c1_split]
  rfl

theorem c1_retrieveMetadata :
    retrieveMetadata alwaysOk c1Damaged (metadataKeyOf [107]) 3600 = some 3 := by
  rw [retrieveMetadata_alwaysOk, c1_storeLookup_meta]

theorem c1_chunk_lookup0 :
    retrieveChunk alwaysOk c1Damaged (createChunkKey [107] 0) 3600 = some c1Chunk0 := by
  have hne : cacheKeyOf (createChunkKey [107] 0) 3600
      ≠ cacheKeyOf (createChunkKey [107] 1) 3600 := by
    intro h
    have := cacheKey_chunkKey_inj [107] 3600 0 1 h
    omega
  have hc : storeLookup c1Damaged (cacheKeyOf (createChunkKey [107] 0) 3600)
      = some (StoredVal.chunkVal c1Chunk0) := by
    unfold c1Damaged
    rw [storeLookup_erase, if_neg hne]
    unfold c1Store
    apply storeLookup_chunk_after_store_of_getElem
    rw [c1_split]
    rfl
  rw [retrieveChunk_alwaysOk, hc]

theorem c1_chunk_lookup1 :
    retrieveChunk alwaysOk c1Damaged (createChunkKey [107] 1) 3600 = none := by
  have hc : storeLookup c1Damaged (cacheKeyOf (createChunkKey [107] 1) 3600) = none := by
    unfold c1Damaged
    rw [storeLookup_erase, if_pos rfl]
  rw [retrieveChunk_alwaysOk, hc]

theorem c1_chunk_lookup2 :
    retrieveChunk alwaysOk c1Damaged (createChunkKey [107] 2) 3600 = some c1Chunk2 := by
  have hne : cacheKeyOf (createChunkKey [107] 2) 3600
      ≠ cacheKeyOf (createChunkKey [107] 1) 3600 := by
    intro h
    have := cacheKey_chunkKey_inj [107] 3600 2 1 h
    omega
  have hc : storeLookup c1Damaged (cacheKeyOf (createChunkKey [107] 2) 3600)
      = some (StoredVal.chunkVal c1Chunk2) := by
    unfold c1Damaged
    rw [storeLookup_erase, if_neg hne]
    unfold c1Store
    apply storeLookup_chunk_after_store_of_getElem
    rw [c1_split]
    rfl
  rw [retrieveChunk_alwaysOk, hc]

theorem c1_reassemble :
    reassembleChunks [c1Chunk0, c1Chunk2] = some c1Truncated := by
  unfold reassembleChunks
  have hj : joinChunks [c1Chunk0, c1Chunk2] = stringify c1Truncated := by
    show c1Chunk0 ++ (c1Chunk2 ++ []) = _
    rw [List.append_nil]
    exact c1_joined
  rw [hj, parseJson_stringify]

theorem retrieveFromCache_of_meta (readOk : Key → Bool) (st : Store) (p : Key)
    (r n : Nat) (hm : retrieveMetadata readOk st (metadataKeyOf p) r = some n) :
    retrieveFromCache readOk st p r
      = match reassembleChunks (List.filterMap id ((List.range n).map
          (fun i => retrieveChunk readOk st (createChunkKey p i) r))) with
        | some data => some (data, n)
        | none => none := by
  rw [retrieveFromCache_unfold, hm]

theorem c1_retrieve_damaged :
    retrieveFromCache alwaysOk c1Damaged [107] 3600 = some (c1Truncated, 3) := by
  have hlist : List.filterMap id ((List.range 3).map
        (fun i => retrieveChunk alwaysOk c1Damaged (createChunkKey [107] i) 3600))
      = [c1Chunk0, c1Chunk2] := by
    show List.filterMap id
        [retrieveChunk alwaysOk c1Damaged (createChunkKey [107] 0) 3600,
         retrieveChunk alwaysOk c1Damaged (createChunkKey [107] 1) 3600,
         retrieveChunk alwaysOk c1Damaged (createChunkKey [107] 2) 3600]
      = [c1Chunk0, c1Chunk2]
    rw [c1_chunk_lookup0, c1_chunk_lookup1, c1_chunk_lookup2]
    rfl
  rw [retrieveFromCache_of_meta alwaysOk c1Damaged [107] 3600 3 c1_retrieveMetadata,
    hlist, c1_reassemble]

theorem get_hit {ε : Type} (readOk putOk : Key → Bool) (st : Store) (p : Key) (r : Nat)
    (producer : Except ε JsValue) (data : Json) (n : Nat)
    (h : retrieveFromCache readOk st p r = some (data, n)) :
    get readOk putOk st p r producer = Except.ok (JsValue.ofJson data, 0, st) := by
  unfold get
  rw [h]

theorem get_miss {ε : Type} (readOk putOk : Key → Bool) (st : Store) (p : Key) (r : Nat)
    (producer : Except ε JsValue)
    (h : retrieveFromCache readOk st p r = none) :
    get readOk putOk st p r producer
      = match producer with
        | Except.error e => Except.error (GetErr.producerErr e)
        | Except.ok freshData =>
          match storeInCache putOk st p r freshData with
          | Except.ok st2 => Except.ok (freshData, 1, st2)
          | Except.error err => Except.error err := by
  unfold get
  rw [h]

theorem get_miss_fresh {ε : Type} (readOk putOk : Key → Bool) (st : Store) (p : Key)
    (r : Nat) (fresh : JsValue)
    (h : retrieveFromCache readOk st p r = none) :
    get readOk putOk st p r (Except.ok fresh)
      = match storeInCache (ε := ε) putOk st p r fresh with
        | Except.ok st2 => Except.ok (fresh, 1, st2)
        | Except.error err => Except.error err := by
  rw [get_miss readOk putOk st p r (Except.ok fresh) h]

theorem get_producer_error {ε : Type} (readOk putOk : Key → Bool) (st : Store)
    (p : Key) (r : Nat) (e : ε)
    (h : retrieveFromCache readOk st p r = none) :
    get readOk putOk st p r (Except.error e)
      = Except.error (GetErr.producerErr e) := by
  rw [get_miss readOk putOk st p r (Except.error e) h]

theorem getCachedValue_eq (readOk : Key → Bool) (st : Store) (k : Key) (r : Nat) :
    getCachedValue readOk st k r
      = if readOk (cacheKeyOf k r) = true then storeLookup st (cacheKeyOf k r)
        else none := rfl

/-- C1.  For a populated prefix with `fragmentCount` 3 and the fragments of
that write, the external loss of the single fragment with index 1 does NOT
make the next `get()` invoke the producer: `retrieveFromCache` filters the
absent chunk out, joins the remaining two, the join happens to be a valid
JSON string literal, and `get()` returns this payload reassembled from a
proper subset of the written fragments (1,500,000 of the 3,000,000 written
characters), never consulting the producer — here the producer is even a
failing one, yet `get()` succeeds.  This contradicts the claim (and the
source's own comment that missing chunks make `JSON.parse` fail); the
src/unnamed/part_000 variant's count check would have returned a miss. -/
theorem c1_fragment_loss_returns_truncated :
    storeInCache (ε := Unit) alwaysOk [] [107] 3600 (JsValue.ofJson c1Payload)
        = Except.ok c1Store ∧
      retrieveFromCache alwaysOk c1Damaged [107] 3600 = some (c1Truncated, 3) ∧
      get (ε := Unit) alwaysOk alwaysOk c1Damaged [107] 3600 (Except.error ())
        = Except.ok (JsValue.ofJson c1Truncated, 0, c1Damaged) ∧
      c1Truncated ≠ c1Payload := by
  refine ⟨storeInCache_ok [107] 3600 c1Payload [], c1_retrieve_damaged,
    get_hit alwaysOk alwaysOk c1Damaged [107] 3600 (Except.error ()) c1Truncated 3
      c1_retrieve_damaged, ?_⟩
  intro h
  unfold c1Truncated c1Payload at h
  injection h with h2
  have h3 := congrArg List.length h2
  rw [List.length_replicate, List.length_replicate] at h3
  exact absurd h3 (by decide)

/-- C2 (counterexample).  The splitter slices by UTF-16 code units, not
bytes: splitting the two-character string "éé" (code unit 233, two UTF-8
bytes each) under the configured bound 2 produces the fragment `[34, 233]`
whose encoded byte size is 3, exceeding the bound. -/
theorem c2_fragment_exceeds_byte_bound :
    splitIntoChunks (JsValue.ofJson (Json.jstr [233, 233])) 2
        = Except.ok ([[34, 233], [233, 34]], [34, 233, 233, 34]) ∧
      utf8Length [34, 233] = 3 ∧ ¬ (utf8Length [34, 233] ≤ 2) := by
  refine ⟨rfl, rfl, by decide⟩

/-- C2 (amended).  Every fragment produced by `splitIntoChunks` has at most
`maxChunkSizeBytes` UTF-16 code units (JS string length); the splitter
operates in code units while the bound is named in bytes, so a fragment's
UTF-8 byte size may exceed the bound. -/
theorem c2_fragment_code_unit_bound (data : JsValue) (B : Nat)
    (chunks : List (List Nat)) (js : List Nat)
    (h : splitIntoChunks data B = Except.ok (chunks, js)) :
    ∀ chunk ∈ chunks, chunk.length ≤ B := by
  intro chunk hc
  unfold splitIntoChunks at h
  cases hv : jsonStringifyTop data with
  | none => rw [hv] at h; cases h
  | some s =>
    rw [hv] at h
    injection h with h2
    have hchunks : chunks = splitString s B := (congrArg Prod.fst h2).symm
    rw [hchunks] at hc
    exact splitString_chunk_le s B chunk hc

theorem c2_fragment_code_unit_bound_witness :
    splitIntoChunks (JsValue.ofJson (Json.jstr [233, 233])) 2
        = Except.ok ([[34, 233], [233, 34]], [34, 233, 233, 34]) ∧
      ∀ chunk ∈ [[34, 233], [233, 34]], chunk.length ≤ 2 :=
  ⟨rfl, c2_fragment_code_unit_bound (JsValue.ofJson (Json.jstr [233, 233])) 2
    [[34, 233], [233, 34]] [34, 233, 233, 34] rfl⟩

/-- C3 (counterexample).  With an empty cache and a producer returning the
number 5, a failing external metadata write makes `get()` reject with the
store error instead of returning the fresh payload: nothing on the source's
store-back path catches the failure. -/
theorem c3_storeback_failure_propagates :
    get alwaysOk (fun _ => false) ([] : Store) [107] 60
        (Except.ok (JsValue.ofJson (Json.jnum 5)) : Except Unit JsValue)
      = Except.error GetErr.storeErr := rfl

/-- C3 (amended).  On the miss path the fresh payload is returned only when
the store-back succeeds; when any store-back write fails, `get()` propagates
that error to its caller instead of returning the payload. -/
theorem c3_storeback_result {ε : Type} (readOk putOk : Key → Bool) (st : Store)
    (p : Key) (r : Nat) (fresh : JsValue)
    (hmiss : retrieveFromCache readOk st p r = none) :
    (∀ st2, storeInCache (ε := ε) putOk st p r fresh = Except.ok st2 →
        get (ε := ε) readOk putOk st p r (Except.ok fresh) = Except.ok (fresh, 1, st2)) ∧
      (∀ err, storeInCache (ε := ε) putOk st p r fresh = Except.error err →
        get (ε := ε) readOk putOk st p r (Except.ok fresh) = Except.error err) := by
  constructor
  · intro st2 hst
    rw [get_miss_fresh readOk putOk st p r fresh hmiss, hst]
  · intro err hst
    rw [get_miss_fresh readOk putOk st p r fresh hmiss, hst]

theorem c3_storeback_result_witness :
    retrieveFromCache alwaysOk ([] : Store) [107] 60 = none ∧
      get alwaysOk (fun _ => false) ([] : Store) [107] 60
          (Except.ok (JsValue.ofJson (Json.jnum 5)) : Except Unit JsValue)
        = Except.error GetErr.storeErr :=
  ⟨rfl, (c3_storeback_result alwaysOk (fun _ => false) [] [107] 60
      (JsValue.ofJson (Json.jnum 5)) rfl).2 GetErr.storeErr rfl⟩

/-- C4.  For every payload `P` and every positive size bound `B`, decoding
the reassembly of the split of the encoding of `P` yields `P` exactly:
`reassembleChunks` (join then `JSON.parse`) of `splitString` of
`stringify P` equals `P`. -/
theorem c4_split_roundtrip (P : Json) (B : Nat) (hB : 0 < B) :
    reassembleChunks (splitString (stringify P) B) = some P := by
  unfold reassembleChunks
  rw [splitString_join _ _ hB, parseJson_stringify]

theorem c4_split_roundtrip_witness :
    0 < 3 ∧ reassembleChunks
        (splitString (stringify (Json.jarr [Json.jnum 12, Json.jstr [104, 105]])) 3)
      = some (Json.jarr [Json.jnum 12, Json.jstr [104, 105]]) :=
  ⟨by decide, c4_split_roundtrip (Json.jarr [Json.jnum 12, Json.jstr [104, 105]]) 3
    (by decide)⟩

/-- C5.  For every text and every positive bound `B`, concatenating the
fragments of `splitString text B` in index order yields `text` exactly,
including the empty string and texts whose length is an exact multiple of
`B`. -/
theorem c5_concat_of_split (text : List Nat) (B : Nat) (hB : 0 < B) :
    joinChunks (splitString text B) = text :=
  splitString_join text B hB

theorem c5_concat_of_split_witness :
    (0 < 2 ∧ joinChunks (splitString [] 2) = []) ∧
      (0 < 2 ∧ joinChunks (splitString [97, 98, 99, 100] 2) = [97, 98, 99, 100]) :=
  ⟨⟨by decide, c5_concat_of_split [] 2 (by decide)⟩,
   ⟨by decide, c5_concat_of_split [97, 98, 99, 100] 2 (by decide)⟩⟩

/-- C6.  With an empty backing store, the first `get()` invokes the producer
exactly once (producer-invocation count 1) and returns its result; a second
`get()` for the same prefix against the still-populated store does not
invoke the producer (count 0, and the result does not depend on the second
producer, which is universally quantified) and returns an equal value. -/
theorem c6_miss_then_hit {ε1 ε2 : Type} (j : Json) (p : Key) (r : Nat)
    (producer2 : Except ε2 JsValue) :
    ∃ st1,
      get alwaysOk alwaysOk ([] : Store) p r
          (Except.ok (JsValue.ofJson j) : Except ε1 JsValue)
        = Except.ok (JsValue.ofJson j, 1, st1) ∧
      get alwaysOk alwaysOk st1 p r producer2
        = Except.ok (JsValue.ofJson j, 0, st1) := by
  refine ⟨applyWrites [] (storeBackWrites p j) r, ?_, ?_⟩
  · rw [get_miss_fresh alwaysOk alwaysOk [] p r _ (retrieveFromCache_empty alwaysOk p r),
      storeInCache_ok]
  · exact get_hit alwaysOk alwaysOk _ p r producer2 j _
      (retrieveFromCache_after_store p r j [])

/-- C7.  Whenever the cache path yields a miss and the producer fails, the
producer's error propagates to the caller of `get()` unmodified (carried
verbatim inside the `producerErr` injection of the model's error union). -/
theorem c7_producer_error_propagates {ε : Type} (readOk putOk : Key → Bool)
    (st : Store) (p : Key) (r : Nat) (e : ε)
    (hmiss : retrieveFromCache readOk st p r = none) :
    get readOk putOk st p r (Except.error e)
      = Except.error (GetErr.producerErr e) :=
  get_producer_error readOk putOk st p r e hmiss

theorem c7_producer_error_propagates_witness :
    retrieveFromCache alwaysOk ([] : Store) [107] 60 = none ∧
      get alwaysOk alwaysOk ([] : Store) [107] 60 (Except.error 5)
        = Except.error (GetErr.producerErr 5) :=
  ⟨rfl, c7_producer_error_propagates alwaysOk alwaysOk [] [107] 60 5 rfl⟩

/-- C8.  Any store failure (or decode failure) during metadata retrieval is
mapped to an absent result — `retrieveMetadata` returns `none`, a total
function that never raises — and the orchestrator treats the prefix as a
full cache miss. -/
theorem c8_metadata_failure_absent (readOk : Key → Bool) (st : Store) (p : Key)
    (r : Nat) (hfail : readOk (cacheKeyOf (metadataKeyOf p) r) = false) :
    retrieveMetadata readOk st (metadataKeyOf p) r = none ∧
      retrieveFromCache readOk st p r = none := by
  have h1 : retrieveMetadata readOk st (metadataKeyOf p) r = none := by
    unfold retrieveMetadata
    rw [getCachedValue_eq, hfail]
    rfl
  refine ⟨h1, ?_⟩
  rw [retrieveFromCache_unfold, h1]

theorem c8_metadata_failure_absent_witness :
    ((fun (_ : Key) => false) (cacheKeyOf (metadataKeyOf [107]) 60) = false) ∧
      (retrieveMetadata (fun _ => false)
          [(cacheKeyOf (metadataKeyOf [107]) 60, StoredVal.metaVal 1)]
          (metadataKeyOf [107]) 60 = none ∧
        retrieveFromCache (fun _ => false)
          [(cacheKeyOf (metadataKeyOf [107]) 60, StoredVal.metaVal 1)] [107] 60 = none) :=
  ⟨rfl, c8_metadata_failure_absent (fun _ => false)
    [(cacheKeyOf (metadataKeyOf [107]) 60, StoredVal.metaVal 1)] [107] 60 rfl⟩

/-- C9 (counterexample).  The metadata record is not stored under
`prefix + ":metadata"`: for prefix "k" the derived metadata key differs from
`"k:metadata"`, nothing is stored under a key derived from `"k:metadata"`,
and the record actually lives under the key derived from
`"metadata::" + prefix`. -/
theorem c9_metadata_key_counterexample :
    storeInCache (ε := Unit) alwaysOk [] [107] 60 (JsValue.ofJson (Json.jnum 5))
        = Except.ok [(cacheKeyOf (createChunkKey [107] 0) 60, StoredVal.chunkVal [53]),
            (cacheKeyOf (metadataKeyOf [107]) 60, StoredVal.metaVal 1)] ∧
      metadataKeyOf [107] ≠ [107] ++ [58, 109, 101, 116, 97, 100, 97, 116, 97] ∧
      storeLookup
          [(cacheKeyOf (createChunkKey [107] 0) 60, StoredVal.chunkVal [53]),
            (cacheKeyOf (metadataKeyOf [107]) 60, StoredVal.metaVal 1)]
          (cacheKeyOf ([107] ++ [58, 109, 101, 116, 97, 100, 97, 116, 97]) 60) = none ∧
      storeLookup
          [(cacheKeyOf (createChunkKey [107] 0) 60, StoredVal.chunkVal [53]),
            (cacheKeyOf (metadataKeyOf [107]) 60, StoredVal.metaVal 1)]
          (cacheKeyOf (metadataKeyOf [107]) 60) = some (StoredVal.metaVal 1) := by
  refine ⟨rfl, by decide, by decide, by decide⟩

/-- C9 (amended).  The metadata record of prefix `p` is stored under the key
`"metadata::" ++ p` (with the store layer appending `":" ++ revalidateSeconds`),
not `p ++ ":metadata"`. -/
theorem c9_metadata_key_derivation {ε : Type} (p : Key) (r : Nat) (j : Json)
    (st0 st1 : Store)
    (h : storeInCache (ε := ε) alwaysOk st0 p r (JsValue.ofJson j) = Except.ok st1) :
    metadataKeyOf p = metadataLit ++ p ∧
      ∃ n, storeLookup st1 ((metadataLit ++ p) ++ [58] ++ natRepr r)
        = some (StoredVal.metaVal n) := by
  rw [storeInCache_ok] at h
  injection h with h2
  refine ⟨rfl, (splitString (stringify j) safeChunkSizeBytes).length, ?_⟩
  rw [← h2]
  exact storeLookup_meta_after_store p r j st0

theorem c9_metadata_key_derivation_witness :
    storeInCache (ε := Unit) alwaysOk [] [107] 60 (JsValue.ofJson (Json.jnum 5))
        = Except.ok [(cacheKeyOf (createChunkKey [107] 0) 60, StoredVal.chunkVal [53]),
            (cacheKeyOf (metadataKeyOf [107]) 60, StoredVal.metaVal 1)] ∧
      (metadataKeyOf [107] = metadataLit ++ [107] ∧
        ∃ n, storeLookup
            [(cacheKeyOf (createChunkKey [107] 0) 60, StoredVal.chunkVal [53]),
              (cacheKeyOf (metadataKeyOf [107]) 60, StoredVal.metaVal 1)]
            ((metadataLit ++ [107]) ++ [58] ++ natRepr 60)
          = some (StoredVal.metaVal n)) :=
  ⟨rfl, c9_metadata_key_derivation (ε := Unit) [107] 60 (Json.jnum 5) [] _ rfl⟩

/-- C10.  When the producer's value has no JSON encoding (`JSON.stringify`
yields `undefined`: the value `undefined` or a bare function), `get()` on
the miss path throws the TypeError raised by the splitter reading
`jsonString.length`, instead of returning the fresh value. -/
theorem c10_unserializable_type_error {ε : Type} (readOk putOk : Key → Bool)
    (st : Store) (p : Key) (r : Nat) (v : JsValue)
    (hmiss : retrieveFromCache readOk st p r = none)
    (hv : jsonStringifyTop v = none) :
    get readOk putOk st p r (Except.ok v : Except ε JsValue)
      = Except.error GetErr.typeErrorUndefined := by
  have hsi : storeInCache (ε := ε) putOk st p r v
      = Except.error GetErr.typeErrorUndefined := by
    unfold storeInCache splitIntoChunks
    rw [hv]
  rw [get_miss_fresh readOk putOk st p r v hmiss, hsi]

theorem c10_unserializable_type_error_witness :
    retrieveFromCache alwaysOk ([] : Store) [107] 60 = none ∧
      jsonStringifyTop JsValue.undefVal = none ∧
      get alwaysOk alwaysOk ([] : Store) [107] 60
          (Except.ok JsValue.undefVal : Except Unit JsValue)
        = Except.error GetErr.typeErrorUndefined :=
  ⟨rfl, rfl, c10_unserializable_type_error alwaysOk alwaysOk [] [107] 60
    JsValue.undefVal rfl rfl⟩

end ChunkedCache
